import Mathlib

/-!
Shallow embedding of `vsapy/vsapy.py` (VSA primitives): the capacity
utility `get_hd_threshold`, the `Real2Binary` projector, the
cross-representation conversion `to_vsa_type`, and the generic algebra
facade (`bind`, `sum`).

Python floats are modelled as exact rationals or reals; numpy arrays as
Lean lists.  The sibling modules `vsatype.py`, `bsc.py`, `tern.py`,
`ternzero.py`, `hrr.py` are imported by the source but are not part of
this repository snapshot; the pieces of them that the facade relies on
(the discriminant tag, operand validation, length truncation,
per-representation operations, zero-flipping normalization) are
modelled from the specification and marked as such in their doc
comments.
-/

namespace Vsapy

/-- Parity adjustment in `get_hd_threshold` (vsapy.py lines 28-29):
`if num_vecs % 2 > 0: num_vecs -= 1`. -/
def hd_adjust (num_vecs : ℕ) : ℕ :=
  if num_vecs % 2 > 0 then num_vecs - 1 else num_vecs

/-- The cumulative permutation sum in `get_hd_threshold` (vsapy.py lines 31-33):
`P = 0; for j in range(num_vecs // 2, num_vecs + 1): P = P + scm.comb(num_vecs, j)`.
Python `range(a, b)` is `List.range' a (b - a)` and `scm.comb` is the binomial
coefficient (exact for these arguments), carried in `ℚ`. -/
def hd_P (nv : ℕ) : ℚ :=
  ((List.range' (nv / 2) (nv + 1 - nv / 2)).map (fun j => (nv.choose j : ℚ))).sum

/-- Embedding of `get_hd_threshold(num_vecs)` (vsapy.py lines 12-37), the
spec's `expected_mismatch`; float arithmetic is carried out exactly in `ℚ`. -/
def get_hd_threshold (num_vecs : ℕ) : ℚ :=
  if num_vecs = 1 then 1
  else 1 - hd_P (hd_adjust num_vecs) / 2 ^ hd_adjust num_vecs

/-- The four representation discriminants of the spec's data model
(`VsaType` in vsatype.py, not under src/). -/
inductive VsaType
  | BSC
  | Tern
  | TernZero
  | HRR
deriving DecidableEq

/-- Modelled from the spec: a `VsaBase` vector (vsatype.py, not under src/)
is an ordered fixed-length sequence of numeric elements tagged with a
representation discriminant.  The source exposes the tag both as
`.vsa_type` and (in `to_vsa_type`, line 104) as `.vsatype`; both spellings
denote this field.  The element carrier is `ℤ`, exact for the discrete
representations (`BSC`, `Tern`, `TernZero`) that the computational claims
exercise. -/
structure VsaVec where
  vsa_type : VsaType
  data : List ℤ
deriving DecidableEq

/-- Modelled from the spec: `reset_zeros_normalize` (tern.py, not under
src/) replaces every zero element independently by a random choice of
{-1, 1}; the random draws are supplied as the oracle `rz` (one value per
position), and non-zero elements are unchanged. -/
def reset_zeros_normalize (rz : ℕ → ℤ) (v : List ℤ) : List ℤ :=
  v.mapIdx (fun i x => if x = 0 then rz i else x)

/-- Embedding of `to_vsa_type(sv, vsa_type)` (vsapy.py lines 96-138).
`rz` supplies the random draws of the TernZero zero-flipping step;
`v[v == -1] = 0` is the map `-1 ↦ 0`, `v[v == 0] = -1` the map `0 ↦ -1`;
the numpy `astype` casts are identity on the in-range values involved;
`raise ValueError` is `none`. -/
def to_vsa_type (rz : ℕ → ℤ) (sv : VsaVec) (t : VsaType) : Option VsaVec :=
  if sv.vsa_type = t then some sv
  else
    match sv.vsa_type with
    | VsaType.TernZero =>
        let v := reset_zeros_normalize rz sv.data
        match t with
        | VsaType.Tern => some ⟨t, v⟩
        | VsaType.BSC => some ⟨t, v.map (fun x => if x = -1 then 0 else x)⟩
        | _ => none
    | VsaType.Tern =>
        match t with
        | VsaType.TernZero => some ⟨t, sv.data⟩
        | VsaType.BSC =>
            some ⟨t, sv.data.map (fun x => if x = -1 then 0 else x)⟩
        | _ => none
    | VsaType.BSC =>
        match t with
        | VsaType.Tern =>
            some ⟨t, sv.data.map (fun x => if x = 0 then -1 else x)⟩
        | VsaType.TernZero =>
            some ⟨t, sv.data.map (fun x => if x = 0 then -1 else x)⟩
        | _ => none
    | VsaType.HRR => none

/-- Modelled from the spec: element-wise addition of two tagged vectors,
the step underlying `np.sum` on a sequence of `VsaBase` vectors.  Per the
spec (section 3) a binary operation on vectors of different discriminants
fails with an operand-mismatch error (`VsaBase` arithmetic is in
vsatype.py, not under src/). -/
def vsaAdd (a b : VsaVec) : Option VsaVec :=
  if a.vsa_type = b.vsa_type
  then some ⟨a.vsa_type, List.zipWith (· + ·) a.data b.data⟩
  else none

/-- Embedding of `sum(ndarray, ...)` (vsapy.py lines 239-244):
`VsaBase(np.sum(ndarray, ...), vsa_type=ndarray[0].vsa_type)`.  Indexing
`ndarray[0]` fails on an empty sequence (`none`); `np.sum` folds the
vectors with addition; the result is re-tagged with the first vector's
discriminant. -/
def sum (vs : List VsaVec) : Option VsaVec :=
  match vs with
  | [] => none
  | v0 :: rest =>
      (rest.foldlM vsaAdd v0).map (fun s => ⟨v0.vsa_type, s.data⟩)

/-- Modelled from the spec: `validate_operand` (vsatype.py, not under
src/) checks that both operands share a discriminant and fails
otherwise. -/
def validate_operand (a b : VsaVec) : Bool :=
  a.vsa_type = b.vsa_type

/-- Modelled from the spec: `VsaBase.trunc_vecs_to_same_len` (vsatype.py,
not under src/) truncates both vectors to the shorter common length. -/
def trunc_vecs_to_same_len (a b : VsaVec) : VsaVec × VsaVec :=
  (⟨a.vsa_type, a.data.take (min a.data.length b.data.length)⟩,
   ⟨b.vsa_type, b.data.take (min a.data.length b.data.length)⟩)

/-- Circular convolution of two equal-length vectors,
`c k = Σ_i a i * b ((k - i) mod n)`; the HRR bind of the spec. -/
def circ_conv (a b : List ℤ) : List ℤ :=
  (List.range a.length).map (fun k =>
    ((List.range a.length).map
      (fun i => a.getD i 0 * b.getD ((k + a.length - i) % a.length) 0)).sum)

/-- Modelled from the spec: the per-representation bind implementations
(bsc.py, tern.py, ternzero.py, hrr.py, not under src/): element-wise
exclusive-or for BSC, element-wise multiplication for Tern/TernZero,
circular convolution for HRR. -/
def repr_bind (a b : VsaVec) : VsaVec :=
  match a.vsa_type with
  | VsaType.BSC =>
      ⟨VsaType.BSC, List.zipWith (fun x y => if x = y then 0 else 1) a.data b.data⟩
  | VsaType.Tern => ⟨VsaType.Tern, List.zipWith (· * ·) a.data b.data⟩
  | VsaType.TernZero =>
      ⟨VsaType.TernZero, List.zipWith (· * ·) a.data b.data⟩
  | VsaType.HRR => ⟨VsaType.HRR, circ_conv a.data b.data⟩

/-- Embedding of the facade `bind(a, b)` (vsapy.py lines 166-178):
validate the operands, truncate both to the shorter common length,
delegate to the representation's bind; a failed validation returns
`None`. -/
def bind (a b : VsaVec) : Option VsaVec :=
  if validate_operand a b then
    some (repr_bind (trunc_vecs_to_same_len a b).1 (trunc_vecs_to_same_len a b).2)
  else none

/-- Modelled from numpy (an external library): the global `np.random`
generator is a deterministic function of its internal state, threaded
explicitly here. -/
structure NpRandomState where
  val : ℕ
deriving DecidableEq

/-- Modelled from numpy: `np.random.seed(seed)` puts the generator in a
state determined by the seed alone, independent of the prior state. -/
def np_random_seed (seed : ℕ) : NpRandomState :=
  ⟨seed⟩

/-- Modelled from numpy: `np.random.randint(0, 2, size=(bdim, rdim),
dtype=uint8)`, a `bdim × rdim` 0/1 matrix computed deterministically from
the generator state.  The concrete mixing function is immaterial to the
claims; only its determinism in the state (and non-constancy across
states) is used. -/
def np_random_randint01 (st : NpRandomState) (bdim rdim : ℕ) : List (List ℕ) :=
  (List.range bdim).map (fun i =>
    (List.range rdim).map (fun j => (st.val + i + j) % 2))

/-- Embedding of `Real2Binary.__init__(rdim, bdim, seed)` (vsapy.py lines
41-53): `if seed: np.random.seed(seed)` re-seeds the global generator only
when the seed is truthy (non-zero); the mapper matrix is then drawn from
the resulting generator state.  Returns the stored mapper. -/
def Real2Binary_init (rdim bdim seed : ℕ) (st : NpRandomState) :
    List (List ℕ) :=
  np_random_randint01 (if seed ≠ 0 then np_random_seed seed else st) bdim rdim

/-- The expected value subtracted in `Real2Binary.to_bin` (vsapy.py line
86): `Exp_V = 0.5 * np.sum(v)`.  Float arithmetic is idealized over `ℝ`. -/
def Exp_V (v : List ℝ) : ℝ :=
  0.5 * v.sum

/-- The divisor in `Real2Binary.to_bin` (vsapy.py line 87):
`Var_V = math.sqrt(0.25 * np.sum(v * v))`. -/
noncomputable def Var_V (v : List ℝ) : ℝ :=
  Real.sqrt (0.25 * (v.map (fun x => x * x)).sum)

/-- One row sum of `np.sum(self.mapper * v, axis=1)` (vsapy.py line 88):
the dot product of a mapper row (its 0/1 entries read as reals) with `v`. -/
def row_dot (row v : List ℝ) : ℝ :=
  (List.zipWith (· * ·) row v).sum

/-- Embedding of `Real2Binary.to_bin(v)` (vsapy.py lines 55-93): the
standardized row sums `ZZ = (np.sum(self.mapper * v, axis=1) - Exp_V) /
Var_V` thresholded at zero (`ZZ[ZZ >= 0] = 1; ZZ[ZZ < 0] = 0`) and cast to
unsigned bytes (`ℕ`). -/
noncomputable def to_bin (mapper : List (List ℝ)) (v : List ℝ) : List ℕ :=
  (mapper.map (fun row => (row_dot row v - Exp_V v) / Var_V v)).map
    (fun z => if 0 ≤ z then 1 else 0)

end Vsapy

/-- The loop sum of `get_hd_threshold` is the binomial sum over the closed
interval `[nv / 2, nv]`. -/
theorem Vsapy.hd_P_eq_Icc (nv : ℕ) :
    Vsapy.hd_P nv = ∑ j in Finset.Icc (nv / 2) nv, (nv.choose j : ℚ) := by
  rw [Nat.Icc_eq_range']
  rfl

/-- C1: `expected_mismatch`/`get_hd_threshold` called with `num_vecs == 1`
returns 1.0, not the 0.0 (exact match) that the claim and the function's own
docstring ("0 = exact match") require: evaluation of the code at the failing
input. -/
theorem get_hd_threshold_one_eval : Vsapy.get_hd_threshold 1 = 1 := by
  rfl

/-- C2 counterexample: the claim `expected_mismatch(N) == expected_mismatch(N-1)`
for even `N ≥ 2` fails at `N = 4`: the code gives 5/16 at 4 and 1/4 at 3. -/
theorem get_hd_threshold_even_pred_counterexample :
    ¬ (Vsapy.get_hd_threshold 4 = Vsapy.get_hd_threshold 3) := by
  have h4 : Vsapy.get_hd_threshold 4 = 5 / 16 := by
    norm_num [Vsapy.get_hd_threshold, Vsapy.hd_adjust, Vsapy.hd_P, List.range',
      Nat.choose]
  have h3 : Vsapy.get_hd_threshold 3 = 1 / 4 := by
    norm_num [Vsapy.get_hd_threshold, Vsapy.hd_adjust, Vsapy.hd_P, List.range',
      Nat.choose]
  rw [h4, h3]
  norm_num

/-- C2 (amended): the code decrements an odd `num_vecs`, so each even `N ≥ 2`
coincides with the following odd `N + 1`, not with `N - 1`:
`expected_mismatch(N + 1) == expected_mismatch(N)` whenever `N` is even and
`N ≥ 2`. -/
theorem get_hd_threshold_even_succ (N : ℕ) (hev : N % 2 = 0) (h2 : 2 ≤ N) :
    Vsapy.get_hd_threshold (N + 1) = Vsapy.get_hd_threshold N := by
  have e1 : Vsapy.hd_adjust (N + 1) = N := by
    unfold Vsapy.hd_adjust
    rw [if_pos (by omega)]
    omega
  have e2 : Vsapy.hd_adjust N = N := by
    unfold Vsapy.hd_adjust
    rw [if_neg (by omega)]
  unfold Vsapy.get_hd_threshold
  rw [if_neg (show ¬ (N + 1 = 1) by omega), if_neg (show ¬ (N = 1) by omega),
    e1, e2]

/-- C2 amended-claim witness at `N = 4`. -/
theorem get_hd_threshold_even_succ_witness :
    (4 % 2 = 0) ∧ (2 ≤ 4) ∧
      Vsapy.get_hd_threshold 5 = Vsapy.get_hd_threshold 4 :=
  ⟨by decide, by decide, get_hd_threshold_even_succ 4 (by decide) (by decide)⟩

/-- C6: for `num_vecs ≥ 2`, `get_hd_threshold` returns `1 - P / 2 ^ N` where
`N` is the parity-adjusted vector count and `P = Σ_{j = N / 2}^{N} C(N, j)`. -/
theorem get_hd_threshold_formula (num_vecs N : ℕ) (h2 : 2 ≤ num_vecs)
    (hN : N = Vsapy.hd_adjust num_vecs) :
    Vsapy.get_hd_threshold num_vecs =
      1 - (∑ j in Finset.Icc (N / 2) N, (N.choose j : ℚ)) / 2 ^ N := by
  unfold Vsapy.get_hd_threshold
  rw [if_neg (show ¬ (num_vecs = 1) by omega), ← hN, Vsapy.hd_P_eq_Icc]

/-- C6 witness at `num_vecs = 5` (parity-adjusted count `N = 4`). -/
theorem get_hd_threshold_formula_witness :
    (2 ≤ 5) ∧ (4 = Vsapy.hd_adjust 5) ∧
      Vsapy.get_hd_threshold 5 =
        1 - (∑ j in Finset.Icc (4 / 2) 4, ((4).choose j : ℚ)) / 2 ^ 4 :=
  ⟨by decide, by decide, get_hd_threshold_formula 5 4 (by decide) (by decide)⟩

/-- C3: `to_vsa_type(v, target)` returns the vector itself, unchanged,
whenever its discriminant already equals the target discriminant, for every
vector and every target. -/
theorem to_vsa_type_same_type (rz : ℕ → ℤ) (sv : Vsapy.VsaVec)
    (t : Vsapy.VsaType) (h : sv.vsa_type = t) :
    Vsapy.to_vsa_type rz sv t = some sv := by
  unfold Vsapy.to_vsa_type
  rw [if_pos h]

/-- C3 witness: a concrete BSC vector converted to BSC is returned as is. -/
theorem to_vsa_type_same_type_witness :
    (Vsapy.VsaVec.mk Vsapy.VsaType.BSC [0, 1, 1]).vsa_type = Vsapy.VsaType.BSC ∧
      Vsapy.to_vsa_type (fun _ => 1)
          (Vsapy.VsaVec.mk Vsapy.VsaType.BSC [0, 1, 1]) Vsapy.VsaType.BSC =
        some (Vsapy.VsaVec.mk Vsapy.VsaType.BSC [0, 1, 1]) :=
  ⟨rfl, to_vsa_type_same_type (fun _ => 1) _ _ rfl⟩

/-- C5: for every Tern vector (elements in {-1, 1}), converting Tern → BSC
and back BSC → Tern reproduces the vector's sign pattern exactly: the
`-1 ↦ 0` remap followed by the `0 ↦ -1` remap is the identity. -/
theorem to_vsa_type_tern_bsc_roundtrip (rz rz2 : ℕ → ℤ) (v : Vsapy.VsaVec)
    (hty : v.vsa_type = Vsapy.VsaType.Tern)
    (hdom : ∀ x ∈ v.data, x = -1 ∨ x = 1) :
    ∃ w, Vsapy.to_vsa_type rz v Vsapy.VsaType.BSC = some w ∧
      Vsapy.to_vsa_type rz2 w Vsapy.VsaType.Tern =
        some (Vsapy.VsaVec.mk Vsapy.VsaType.Tern v.data) := by
  refine ⟨Vsapy.VsaVec.mk Vsapy.VsaType.BSC
    (v.data.map (fun x => if x = -1 then 0 else x)), ?_, ?_⟩
  · unfold Vsapy.to_vsa_type
    rw [if_neg (by rw [hty]; intro hc; exact Vsapy.VsaType.noConfusion hc), hty]
  · unfold Vsapy.to_vsa_type
    rw [if_neg (by intro hc; exact Vsapy.VsaType.noConfusion hc)]
    simp only []
    congr 1
    congr 1
    rw [List.map_map]
    rw [List.map_congr_left ?he]
    · exact List.map_id' v.data
    · intro x hx
      rcases hdom x hx with h1 | h1 <;> rw [h1] <;> rfl

/-- C5 witness at the Tern vector `[-1, 1, 1, -1]`. -/
theorem to_vsa_type_tern_bsc_roundtrip_witness :
    (Vsapy.VsaVec.mk Vsapy.VsaType.Tern [-1, 1, 1, -1]).vsa_type =
        Vsapy.VsaType.Tern ∧
      (∀ x ∈ (Vsapy.VsaVec.mk Vsapy.VsaType.Tern [-1, 1, 1, -1]).data,
        x = -1 ∨ x = 1) ∧
      ∃ w, Vsapy.to_vsa_type (fun _ => 1)
          (Vsapy.VsaVec.mk Vsapy.VsaType.Tern [-1, 1, 1, -1])
          Vsapy.VsaType.BSC = some w ∧
        Vsapy.to_vsa_type (fun _ => -1) w Vsapy.VsaType.Tern =
          some (Vsapy.VsaVec.mk Vsapy.VsaType.Tern [-1, 1, 1, -1]) :=
  ⟨rfl, by decide,
    to_vsa_type_tern_bsc_roundtrip (fun _ => 1) (fun _ => -1) _ rfl (by decide)⟩

/-- Folding checked addition over a list of vectors that all share the
accumulator's discriminant succeeds and preserves the discriminant. -/
theorem Vsapy.foldlM_vsaAdd_some (rest : List Vsapy.VsaVec) :
    ∀ v0 : Vsapy.VsaVec, (∀ v ∈ rest, v.vsa_type = v0.vsa_type) →
      ∃ s, rest.foldlM Vsapy.vsaAdd v0 = some s ∧ s.vsa_type = v0.vsa_type := by
  induction rest with
  | nil => exact fun v0 _ => ⟨v0, rfl, rfl⟩
  | cons w ws ih =>
      intro v0 h
      have hw : w.vsa_type = v0.vsa_type := h w (List.mem_cons_self w ws)
      have hadd : Vsapy.vsaAdd v0 w =
          some ⟨v0.vsa_type, List.zipWith (· + ·) v0.data w.data⟩ := by
        unfold Vsapy.vsaAdd
        rw [if_pos hw.symm]
      obtain ⟨s, hs, hts⟩ :=
        ih ⟨v0.vsa_type, List.zipWith (· + ·) v0.data w.data⟩
          (fun v hv => h v (List.mem_cons_of_mem _ hv))
      refine ⟨s, ?_, hts⟩
      rw [List.foldlM_cons, hadd]
      simpa using hs

/-- If folding checked addition over a list of vectors succeeds then every
vector in the list shares the accumulator's discriminant, and the result
keeps it. -/
theorem Vsapy.foldlM_vsaAdd_eq_some (rest : List Vsapy.VsaVec) :
    ∀ v0 s, rest.foldlM Vsapy.vsaAdd v0 = some s →
      s.vsa_type = v0.vsa_type ∧ ∀ v ∈ rest, v.vsa_type = v0.vsa_type := by
  induction rest with
  | nil =>
      intro v0 s hs
      simp only [List.foldlM] at hs
      cases hs
      exact ⟨rfl, by simp⟩
  | cons w ws ih =>
      intro v0 s hs
      rw [List.foldlM_cons] at hs
      cases hacc : Vsapy.vsaAdd v0 w with
      | none => rw [hacc] at hs; simp at hs
      | some acc =>
          rw [hacc] at hs
          simp only [Option.bind_eq_bind, Option.some_bind] at hs
          unfold Vsapy.vsaAdd at hacc
          by_cases ht : v0.vsa_type = w.vsa_type
          · rw [if_pos ht] at hacc
            have hacct : acc.vsa_type = v0.vsa_type := by
              injection hacc with h
              rw [← h]
            obtain ⟨h1, h2⟩ := ih acc s hs
            refine ⟨by rw [h1, hacct], ?_⟩
            intro v hv
            rcases List.mem_cons.mp hv with hv | hv
            · rw [hv, ← ht]
            · rw [h2 v hv, hacct]
          · rw [if_neg ht] at hacc
            exact absurd hacc (by simp)

/-- C4: the facade `sum` fails (returns no tagged result) exactly when the
input sequence is empty or the inputs do not all share one discriminant;
when they all share discriminant `t`, it succeeds and the result is tagged
with `t`. -/
theorem sum_discriminant_spec (vs : List Vsapy.VsaVec) (t : Vsapy.VsaType) :
    (∃ w, Vsapy.sum vs = some w ∧ w.vsa_type = t) ↔
      (vs ≠ [] ∧ ∀ v ∈ vs, v.vsa_type = t) := by
  cases vs with
  | nil => simp [Vsapy.sum]
  | cons v0 rest =>
      constructor
      · rintro ⟨w, hw, hwt⟩
        simp only [Vsapy.sum] at hw
        cases hf : rest.foldlM Vsapy.vsaAdd v0 with
        | none => rw [hf] at hw; simp at hw
        | some s =>
            rw [hf] at hw
            simp only [Option.map_some'] at hw
            obtain ⟨_, hall⟩ := Vsapy.foldlM_vsaAdd_eq_some rest v0 s hf
            have hv0t : v0.vsa_type = t := by
              rw [← hwt]
              injection hw with h
              rw [← h]
            refine ⟨List.cons_ne_nil _ _, ?_⟩
            intro v hv
            rcases List.mem_cons.mp hv with hv | hv
            · rw [hv, hv0t]
            · rw [hall v hv, hv0t]
      · rintro ⟨_, hall⟩
        have hv0 : v0.vsa_type = t := hall v0 (List.mem_cons_self _ _)
        obtain ⟨s, hs, _⟩ := Vsapy.foldlM_vsaAdd_some rest v0
          (fun v hv => by rw [hall v (List.mem_cons_of_mem _ hv), hv0])
        refine ⟨⟨v0.vsa_type, s.data⟩, ?_, hv0⟩
        simp only [Vsapy.sum]
        rw [hs]
        rfl

/-- `repr_bind` on two equal-length vectors returns a vector of that
length, whatever the representation. -/
theorem Vsapy.repr_bind_length (a b : Vsapy.VsaVec)
    (h : a.data.length = b.data.length) :
    (Vsapy.repr_bind a b).data.length = a.data.length := by
  cases ha : a.vsa_type <;>
    simp [Vsapy.repr_bind, ha, Vsapy.circ_conv, List.length_zipWith, h]

/-- C7: when the two operands of `bind` have lengths 100 and 80, the
operation succeeds (no error), both operands are truncated to the shorter
common length, the result has length 80, and it equals
`bind(a[:80], b[:80])`. -/
theorem bind_truncates (a b : Vsapy.VsaVec)
    (hty : a.vsa_type = b.vsa_type)
    (ha : a.data.length = 100) (hb : b.data.length = 80) :
    ∃ c, Vsapy.bind a b = some c ∧ c.data.length = 80 ∧
      Vsapy.bind ⟨a.vsa_type, a.data.take 80⟩ ⟨b.vsa_type, b.data.take 80⟩ =
        some c := by
  have hmin : min a.data.length b.data.length = 80 := by
    rw [ha, hb]
    rfl
  have h1 : Vsapy.bind a b =
      some (Vsapy.repr_bind ⟨a.vsa_type, a.data.take 80⟩
        ⟨b.vsa_type, b.data.take 80⟩) := by
    simp [Vsapy.bind, Vsapy.validate_operand, hty,
      Vsapy.trunc_vecs_to_same_len, hmin]
  have hla : (a.data.take 80).length = 80 := by
    simp [ha]
  have hlb : (b.data.take 80).length = 80 := by
    simp [hb]
  have h2 : Vsapy.bind ⟨a.vsa_type, a.data.take 80⟩
      ⟨b.vsa_type, b.data.take 80⟩ =
      some (Vsapy.repr_bind ⟨a.vsa_type, a.data.take 80⟩
        ⟨b.vsa_type, b.data.take 80⟩) := by
    simp [Vsapy.bind, Vsapy.validate_operand, hty,
      Vsapy.trunc_vecs_to_same_len, hla, hlb, List.take_take]
  have hlen : (Vsapy.repr_bind ⟨a.vsa_type, a.data.take 80⟩
      ⟨b.vsa_type, b.data.take 80⟩).data.length = 80 := by
    rw [Vsapy.repr_bind_length]
    · exact hla
    · rw [hla, hlb]
  exact ⟨_, h1, hlen, h2⟩

/-- C7 witness: concrete BSC vectors of lengths 100 and 80. -/
theorem bind_truncates_witness :
    (Vsapy.VsaVec.mk Vsapy.VsaType.BSC (List.replicate 100 1)).vsa_type =
        (Vsapy.VsaVec.mk Vsapy.VsaType.BSC (List.replicate 80 0)).vsa_type ∧
      (Vsapy.VsaVec.mk Vsapy.VsaType.BSC
          (List.replicate 100 1)).data.length = 100 ∧
      (Vsapy.VsaVec.mk Vsapy.VsaType.BSC
          (List.replicate 80 0)).data.length = 80 ∧
      ∃ c, Vsapy.bind (Vsapy.VsaVec.mk Vsapy.VsaType.BSC (List.replicate 100 1))
            (Vsapy.VsaVec.mk Vsapy.VsaType.BSC (List.replicate 80 0)) =
          some c ∧
        c.data.length = 80 ∧
        Vsapy.bind
            ⟨(Vsapy.VsaVec.mk Vsapy.VsaType.BSC
                (List.replicate 100 1)).vsa_type,
              (Vsapy.VsaVec.mk Vsapy.VsaType.BSC
                (List.replicate 100 1)).data.take 80⟩
            ⟨(Vsapy.VsaVec.mk Vsapy.VsaType.BSC
                (List.replicate 80 0)).vsa_type,
              (Vsapy.VsaVec.mk Vsapy.VsaType.BSC
                (List.replicate 80 0)).data.take 80⟩ = some c :=
  ⟨rfl, by simp, by simp,
    bind_truncates (Vsapy.VsaVec.mk Vsapy.VsaType.BSC (List.replicate 100 1))
      (Vsapy.VsaVec.mk Vsapy.VsaType.BSC (List.replicate 80 0)) rfl
      (by simp) (by simp)⟩

/-- A list of non-negative reals with zero sum is all zeros. -/
theorem Vsapy.sum_nonneg_all_zero (l : List ℝ) (h0 : ∀ x ∈ l, 0 ≤ x)
    (hs : l.sum = 0) : ∀ x ∈ l, x = 0 := by
  induction l with
  | nil => simp
  | cons a as ih =>
      have ha : 0 ≤ a := h0 a (by simp)
      have has : 0 ≤ as.sum := List.sum_nonneg (fun x hx => h0 x (by simp [hx]))
      rw [List.sum_cons] at hs
      have ha0 : a = 0 := by linarith
      have hsum : as.sum = 0 := by linarith
      intro x hx
      rcases List.mem_cons.mp hx with rfl | hx
      · exact ha0
      · exact ih (fun y hy => h0 y (by simp [hy])) hsum x hx

/-- C8: for an input `v` with non-zero sum of squares, `Real2Binary.to_bin`
returns one element per mapper row; element `i` is 1 exactly when the dot
product of row `i` with `v`, minus `0.5 * sum(v)`, divided by
`sqrt(0.25 * sum(v*v))`, is `≥ 0`, and 0 otherwise; every element is 0 or 1;
and since the divisor is positive, this is the raw threshold
`0.5 * sum(v) ≤ dot(row i, v)`. -/
theorem to_bin_thresholds (mapper : List (List ℝ)) (v : List ℝ)
    (h : (v.map (fun x => x * x)).sum ≠ 0) :
    Vsapy.to_bin mapper v =
        mapper.map (fun row => if 0 ≤ (Vsapy.row_dot row v - 0.5 * v.sum) /
          Real.sqrt (0.25 * (v.map (fun x => x * x)).sum) then 1 else 0) ∧
      (∀ y ∈ Vsapy.to_bin mapper v, y = 0 ∨ y = 1) ∧
      Vsapy.to_bin mapper v =
        mapper.map (fun row =>
          if 0.5 * v.sum ≤ Vsapy.row_dot row v then 1 else 0) := by
  have hnn : (0:ℝ) ≤ (v.map (fun x => x * x)).sum :=
    List.sum_nonneg (by
      intro y hy
      obtain ⟨z, _, rfl⟩ := List.mem_map.mp hy
      exact mul_self_nonneg z)
  have hpos : 0 < Real.sqrt (0.25 * (v.map (fun x => x * x)).sum) := by
    apply Real.sqrt_pos.mpr
    rcases lt_or_eq_of_le hnn with hlt | heq
    · linarith
    · exact absurd heq.symm h
  refine ⟨?_, ?_, ?_⟩
  · rw [Vsapy.to_bin, List.map_map]
    rfl
  · intro y hy
    rw [Vsapy.to_bin] at hy
    obtain ⟨z, _, rfl⟩ := List.mem_map.mp hy
    by_cases hz : 0 ≤ z
    · right
      simp [hz]
    · left
      simp [hz]
  · rw [Vsapy.to_bin, List.map_map]
    apply List.map_congr_left
    intro row _
    have hiff : (0 ≤ (Vsapy.row_dot row v - Vsapy.Exp_V v) / Vsapy.Var_V v) ↔
        (0.5 * v.sum ≤ Vsapy.row_dot row v) := by
      rw [Vsapy.Var_V, le_div_iff₀ hpos, zero_mul, sub_nonneg, Vsapy.Exp_V]
    simp only [Function.comp]
    rw [if_congr hiff rfl rfl]

/-- C8 witness: mapper `[[1]]`, `v = [1]`. -/
theorem to_bin_thresholds_witness :
    (([(1:ℝ)].map (fun x => x * x)).sum ≠ 0) ∧
      (Vsapy.to_bin [[(1:ℝ)]] [1] =
          [[(1:ℝ)]].map (fun row => if 0 ≤ (Vsapy.row_dot row [1] -
            0.5 * List.sum [(1:ℝ)]) /
            Real.sqrt (0.25 * (([(1:ℝ)]).map (fun x => x * x)).sum)
            then 1 else 0) ∧
        (∀ y ∈ Vsapy.to_bin [[(1:ℝ)]] [1], y = 0 ∨ y = 1) ∧
        Vsapy.to_bin [[(1:ℝ)]] [1] =
          [[(1:ℝ)]].map (fun row =>
            if 0.5 * List.sum [(1:ℝ)] ≤ Vsapy.row_dot row [1]
            then 1 else 0)) :=
  ⟨by norm_num, to_bin_thresholds [[1]] [1] (by norm_num)⟩

/-- C9: the caller-supplied seed is applied only when truthy.  For every
non-zero seed, two `Real2Binary` constructions with the same
`(rdim, bdim, seed)` produce identical mapper matrices whatever the prior
generator states (two-run determinism); with seed 0 the generator is left
unseeded, and two prior states exhibiting different mappers show seed 0
carries no determinism guarantee. -/
theorem real2binary_seed_determinism (rdim bdim s : ℕ) (hs : s ≠ 0)
    (st1 st2 : Vsapy.NpRandomState) :
    Vsapy.Real2Binary_init rdim bdim s st1 =
        Vsapy.Real2Binary_init rdim bdim s st2 ∧
      Vsapy.Real2Binary_init 1 1 0 ⟨0⟩ ≠ Vsapy.Real2Binary_init 1 1 0 ⟨1⟩ := by
  constructor
  · simp [Vsapy.Real2Binary_init, hs]
  · decide

/-- C9 witness: seed 5, prior states 0 and 7. -/
theorem real2binary_seed_determinism_witness :
    (5 ≠ 0) ∧
      (Vsapy.Real2Binary_init 2 3 5 ⟨0⟩ = Vsapy.Real2Binary_init 2 3 5 ⟨7⟩ ∧
        Vsapy.Real2Binary_init 1 1 0 ⟨0⟩ ≠ Vsapy.Real2Binary_init 1 1 0 ⟨1⟩) :=
  ⟨by decide, real2binary_seed_determinism 2 3 5 (by decide) ⟨0⟩ ⟨7⟩⟩

/-- C10: the divisor of the single division in `Real2Binary.to_bin`,
`Var_V = sqrt(0.25 * sum(v*v))`, is zero exactly when the input vector is
all zeros; hence the division is well-defined precisely when `v` has a
non-zero element, and the all-zero input is the unguarded edge case. -/
theorem var_v_zero_iff_all_zero (v : List ℝ) :
    Vsapy.Var_V v = 0 ↔ ∀ x ∈ v, x = 0 := by
  unfold Vsapy.Var_V
  rw [Real.sqrt_eq_zero']
  constructor
  · intro hle x hx
    have hnn : (0:ℝ) ≤ (v.map (fun y => y * y)).sum :=
      List.sum_nonneg (by
        intro y hy
        obtain ⟨z, _, rfl⟩ := List.mem_map.mp hy
        exact mul_self_nonneg z)
    have hz : (v.map (fun y => y * y)).sum = 0 := by linarith
    have hall := Vsapy.sum_nonneg_all_zero (v.map (fun y => y * y))
      (by
        intro y hy
        obtain ⟨z, _, rfl⟩ := List.mem_map.mp hy
        exact mul_self_nonneg z) hz
    exact mul_self_eq_zero.mp (hall (x * x) (List.mem_map_of_mem _ hx))
  · intro hz
    have hsum : (v.map (fun y => y * y)).sum = 0 :=
      List.sum_eq_zero (by
        intro y hy
        obtain ⟨z, hzv, rfl⟩ := List.mem_map.mp hy
        rw [hz z hzv]
        ring)
    rw [hsum]
    norm_num
